import Mathlib

/-
  Shallow embedding of the heatshrink compression crate
  (src/lib.rs, src/encoder.rs, src/decoder.rs).

  Bytes are Nat values < 256; machine integers are Nat with explicit
  `% 2^16` / `% 2^32` where Rust wrapping can matter.  Rust panics
  (out-of-bounds slice indexing, failed assert!) are modelled by an
  abnormal outcome (`none` for the encoder, `DOut.oob` for the decoder).
  Loops are translated to structurally recursive functions on an explicit
  iteration bound that is always at least the number of iterations the
  Rust loop performs, so every definition is executable.
-/

namespace Heatshrink

/-- Configuration pair, from src/lib.rs (fields window_sz2, lookahead_sz2). -/
structure Config where
  window_sz2 : Nat
  lookahead_sz2 : Nat

/-- Errors of the encoder, from src/encoder.rs. -/
inductive EncodeError where
  | OutputFull : EncodeError

/-- Encoder state, from src/encoder.rs (bit_index, bit_buf, num_bits and the
output buffer; the borrowed input and cfg are passed as parameters). -/
structure EState where
  bitIndex : Nat
  bitBuf : Nat
  numBits : Nat
  output : List Nat

/-- Scan of HeatshrinkEncoder::cmp's iterator chain: index of the first
mismatch between input[i..] and input[j..] within the given size, or the
size when all positions match (the captured `matched` variable records the
first mismatch because `all` short-circuits there). -/
def cmpRun (input : List Nat) (i j : Nat) : Nat → Nat
  | 0 => 0
  | s + 1 =>
    if input.getD i 0 = input.getD j 0 then cmpRun input (i + 1) (j + 1) s + 1 else 0

/-- HeatshrinkEncoder::cmp (src/encoder.rs lines 47-71).  The assert
`idx1 < idx2` holds at every call site (search only compares earlier
positions with the head). -/
def cmp (input : List Nat) (cfg : Config) (idx1 idx2 : Nat) : Nat :=
  cmpRun input idx1 idx2 (min input.length (idx2 + 2 ^ cfg.lookahead_sz2) - idx2)

/-- The for-loop of HeatshrinkEncoder::search: n remaining candidates
starting at pos, folding the running best with the `clen >= best.1` update. -/
def searchFrom (input : List Nat) (cfg : Config) (head : Nat) :
    Nat → Nat → Nat × Nat → Nat × Nat
  | 0, _, best => best
  | n + 1, pos, best =>
    searchFrom input cfg head n (pos + 1)
      (if best.2 ≤ cmp input cfg pos head then (pos, cmp input cfg pos head) else best)

/-- HeatshrinkEncoder::search (src/encoder.rs lines 73-84). -/
def search (input : List Nat) (cfg : Config) (head : Nat) : Nat × Nat :=
  searchFrom input cfg head
    (head - if head < 2 ^ cfg.window_sz2 then 0 else head - 2 ^ cfg.window_sz2)
    (if head < 2 ^ cfg.window_sz2 then 0 else head - 2 ^ cfg.window_sz2) (0, 0)

/-- Threshold computed at the top of HeatshrinkEncoder::encode. -/
def threshold (cfg : Config) : Nat :=
  (1 + cfg.lookahead_sz2 + cfg.window_sz2) / 8

/-- The `while num_bits >= 8` loop of emit_bits.  The iteration bound is
instantiated with num_bits, which always dominates the number of
iterations (each one removes 8 pending bits). -/
def emit_go : Nat → EState → Except EncodeError EState
  | 0, e => .ok e
  | fuel + 1, e =>
    if 8 ≤ e.numBits then
      if e.output.length ≤ e.bitIndex then .error .OutputFull
      else
        emit_go fuel
          { e with
            output := e.output.set e.bitIndex ((e.bitBuf >>> (e.numBits - 8)) % 256)
            bitIndex := e.bitIndex + 1
            numBits := e.numBits - 8 }
    else .ok e

/-- HeatshrinkEncoder::emit_bits (src/encoder.rs lines 109-122).  The
assert compares val (a u16) against 1 << bit_cnt, a shift performed in
u16: for bit_cnt at least 16 the shift itself overflows the 16-bit type,
which under debug assertions (the mode the crate's test suite runs in) is
an immediate panic; a release build masks the shift amount, turning the
assert into val < 1, which then fails for every nonzero val.  We model
the debug behavior: bit_cnt of 16 or more is the abnormal outcome none,
like a failed assert; every concrete evaluation in this file that reaches
width 16 does so with a nonzero val, where both build modes panic. -/
def emit_bits (val bit_cnt : Nat) (e : EState) : Option (Except EncodeError EState) :=
  if 16 ≤ bit_cnt then none
  else if val < 2 ^ bit_cnt then
    let e' :=
      { e with
        bitBuf := ((e.bitBuf <<< bit_cnt) ||| val) % 2 ^ 32
        numBits := e.numBits + bit_cnt }
    some (emit_go e'.numBits e')
  else none

/-- HeatshrinkEncoder::flush (src/encoder.rs lines 124-131).  The write
`self.output[self.bit_index]` is not bounds-checked in the source; an
out-of-bounds index is a Rust panic, modelled as `none`. -/
def flush (e : EState) : Option EState :=
  if 0 < e.numBits then
    if e.bitIndex < e.output.length then
      some
        { e with
          output := e.output.set e.bitIndex ((e.bitBuf <<< (8 - e.numBits)) % 256)
          bitIndex := e.bitIndex + 1
          numBits := 0 }
    else none
  else some e

/-- One iteration of the while-loop body of HeatshrinkEncoder::encode
(src/encoder.rs lines 89-103): search, then either a backreference token
(tag 0, rel-1 in w bits, len-1 in l bits) or a literal token
(input[pos] | 0x0100 in 9 bits), with the corresponding advance of pos.
The `as u16` casts are the `% 2^16`. -/
def encodeStep (input : List Nat) (cfg : Config) (pos : Nat) (e : EState) :
    Option (Except EncodeError (EState × Nat)) :=
  let best := search input cfg pos
  if threshold cfg < best.2 then
    match emit_bits 0 1 e with
    | none => none
    | some (.error er) => some (.error er)
    | some (.ok e1) =>
      match emit_bits ((pos - best.1 - 1) % 2 ^ 16) cfg.window_sz2 e1 with
      | none => none
      | some (.error er) => some (.error er)
      | some (.ok e2) =>
        match emit_bits ((best.2 - 1) % 2 ^ 16) cfg.lookahead_sz2 e2 with
        | none => none
        | some (.error er) => some (.error er)
        | some (.ok e3) => some (.ok (e3, pos + best.2))
  else
    match emit_bits (input.getD pos 0 ||| 0x0100) 9 e with
    | none => none
    | some (.error er) => some (.error er)
    | some (.ok e1) => some (.ok (e1, pos + 1))

/-- The `while pos < self.input.len()` loop of HeatshrinkEncoder::encode.
The iteration bound input.length + 1 dominates the number of iterations
because pos strictly increases each time. -/
def encode_go (input : List Nat) (cfg : Config) :
    Nat → Nat → EState → Option (Except EncodeError EState)
  | 0, _, e => some (.ok e)
  | fuel + 1, pos, e =>
    if pos < input.length then
      match encodeStep input cfg pos e with
      | none => none
      | some (.error er) => some (.error er)
      | some (.ok (e', pos')) => encode_go input cfg fuel pos' e'
    else some (.ok e)

/-- Top-level encode (src/encoder.rs lines 23-30 and 86-107): run the loop
from a fresh state over the caller's output buffer, flush, and return the
written prefix. -/
def encode (input output : List Nat) (cfg : Config) :
    Option (Except EncodeError (List Nat)) :=
  match encode_go input cfg (input.length + 1) 0 ⟨0, 0, 0, output⟩ with
  | none => none
  | some (.error er) => some (.error er)
  | some (.ok e) =>
    match flush e with
    | none => none
    | some e' => some (.ok (e'.output.take e'.bitIndex))

/-- Decoder state tags, from src/decoder.rs (enum HSDstate). -/
inductive HSDstate where
  | tagBit
  | yieldLiteral
  | backrefIndexMsb
  | backrefIndexLsb
  | backrefCountMsb
  | backrefCountLsb
  | yieldBackref
  | needMoreData
  | outputFull
  | illegalBackref
deriving DecidableEq

/-- Errors of the decoder, from src/decoder.rs. -/
inductive DecodeError where
  | OutputFull : DecodeError
  | IllegalBackref : DecodeError
deriving DecidableEq

/-- Decoder state, from src/decoder.rs (output_count, output_index, state,
head_index, bit_index and the output buffer; input and cfg are passed as
parameters). -/
structure DState where
  outputCount : Nat
  outputIndex : Nat
  state : HSDstate
  headIndex : Nat
  bitIndex : Nat
  output : List Nat

/-- Outcome of get_bits: a value with the advanced cursor, the
insufficient-bits None of the source, or an out-of-bounds input read
(a Rust panic). -/
inductive GBOut where
  | oob : GBOut
  | insufficient : GBOut
  | ok (v : Nat) (bitIndex : Nat) : GBOut
deriving DecidableEq

/-- The `while num < count` loop of get_bits, accumulating further input
bytes.  Returns the final (bitbuf, num); `none` is an out-of-bounds read.
The iteration bound count dominates the number of iterations (num grows by
8 from at least 1). -/
def gb_go (input : List Nat) (count : Nat) :
    Nat → Nat → Nat → Nat → Option (Nat × Nat)
  | 0, _, num, bitbuf => some (bitbuf, num)
  | fuel + 1, bi, num, bitbuf =>
    if num < count then
      match input.get? ((bi + 8) / 8) with
      | none => none
      | some b =>
        gb_go input count fuel (bi + 8) (num + 8) (((bitbuf <<< 8) ||| b) % 2 ^ 32)
    else some (bitbuf, num)

/-- HeatshrinkDecoder::get_bits (src/decoder.rs lines 98-115). -/
def get_bits (input : List Nat) (count bitIndex : Nat) : GBOut :=
  let endPos := bitIndex + count
  if input.length * 8 < endPos then .insufficient
  else
    match input.get? (bitIndex / 8) with
    | none => .oob
    | some b0 =>
      match gb_go input count count bitIndex (8 - bitIndex % 8) b0 with
      | none => .oob
      | some (bitbuf, num) =>
        .ok (((bitbuf >>> (num - count)) &&& (2 ^ count - 1)) % 2 ^ 16) endPos

/-- HeatshrinkDecoder::st_tag_bit (src/decoder.rs lines 117-130). -/
def st_tag_bit (cfg : Config) (input : List Nat) (d : DState) : Option DState :=
  match get_bits input 1 d.bitIndex with
  | .oob => none
  | .insufficient => some { d with state := .needMoreData }
  | .ok v bi =>
    if v = 0 then
      if 8 < cfg.window_sz2 then
        some { d with bitIndex := bi, state := .backrefIndexMsb }
      else
        some { d with bitIndex := bi, outputIndex := 0, state := .backrefIndexLsb }
    else some { d with bitIndex := bi, state := .yieldLiteral }

/-- HeatshrinkDecoder::st_yield_literal (src/decoder.rs lines 132-142).
The write `self.output[self.head_index]` is not bounds-checked; an
out-of-bounds index is a Rust panic, modelled as `none`. -/
def st_yield_literal (input : List Nat) (d : DState) : Option DState :=
  match get_bits input 8 d.bitIndex with
  | .oob => none
  | .insufficient => some { d with state := .needMoreData }
  | .ok v bi =>
    if d.headIndex < d.output.length then
      some
        { d with
          output := d.output.set d.headIndex (v % 256)
          headIndex := d.headIndex + 1
          bitIndex := bi
          state := .tagBit }
    else none

/-- HeatshrinkDecoder::st_backref_index_msb (src/decoder.rs lines 144-153). -/
def st_backref_index_msb (cfg : Config) (input : List Nat) (d : DState) : Option DState :=
  match get_bits input (cfg.window_sz2 - 8) d.bitIndex with
  | .oob => none
  | .insufficient => some { d with state := .needMoreData }
  | .ok v bi =>
    some { d with outputIndex := (v <<< 8) % 2 ^ 16, bitIndex := bi, state := .backrefIndexLsb }

/-- HeatshrinkDecoder::st_backref_index_lsb (src/decoder.rs lines 155-170). -/
def st_backref_index_lsb (cfg : Config) (input : List Nat) (d : DState) : Option DState :=
  match get_bits input (min cfg.window_sz2 8) d.bitIndex with
  | .oob => none
  | .insufficient => some { d with state := .needMoreData }
  | .ok v bi =>
    some
      { d with
        outputIndex := ((d.outputIndex ||| v) + 1) % 2 ^ 16
        outputCount := 0
        bitIndex := bi
        state := if 8 < cfg.lookahead_sz2 then .backrefCountMsb else .backrefCountLsb }

/-- HeatshrinkDecoder::st_backref_count_msb (src/decoder.rs lines 172-181).
Note the transition target in the source is HSDSBackrefIndexLsb. -/
def st_backref_count_msb (cfg : Config) (input : List Nat) (d : DState) : Option DState :=
  match get_bits input (cfg.lookahead_sz2 - 8) d.bitIndex with
  | .oob => none
  | .insufficient => some { d with state := .needMoreData }
  | .ok v bi =>
    some { d with outputCount := (v <<< 8) % 2 ^ 16, bitIndex := bi, state := .backrefIndexLsb }

/-- HeatshrinkDecoder::st_backref_count_lsb (src/decoder.rs lines 183-193). -/
def st_backref_count_lsb (cfg : Config) (input : List Nat) (d : DState) : Option DState :=
  match get_bits input (min cfg.lookahead_sz2 8) d.bitIndex with
  | .oob => none
  | .insufficient => some { d with state := .needMoreData }
  | .ok v bi =>
    some
      { d with
        outputCount := ((d.outputCount ||| v) + 1) % 2 ^ 16
        bitIndex := bi
        state := .yieldBackref }

/-- The `for i in 0..count` copy loop of st_yield_backref: one byte at a
time, both the read position and the write position advancing by one. -/
def brCopy (start head : Nat) : Nat → List Nat → List Nat
  | 0, out => out
  | n + 1, out => brCopy (start + 1) (head + 1) n (out.set head (out.getD start 0))

/-- HeatshrinkDecoder::st_yield_backref (src/decoder.rs lines 195-213).
All buffer accesses of the copy loop are in bounds once the two guards
have passed, so this state function is total. -/
def st_yield_backref (d : DState) : DState :=
  let count := d.outputCount
  if d.headIndex < d.outputIndex then { d with state := .illegalBackref }
  else
    let start_in := d.headIndex - d.outputIndex
    if d.output.length < d.headIndex + count then { d with state := .outputFull }
    else
      { d with
        output := brCopy start_in d.headIndex count d.output
        headIndex := d.headIndex + count
        state := .tagBit }

/-- Dispatch of one state transition, the match inside
HeatshrinkDecoder::decode.  Terminal states are handled by the loop and
map to themselves here. -/
def stepD (cfg : Config) (input : List Nat) (d : DState) : Option DState :=
  match d.state with
  | .tagBit => st_tag_bit cfg input d
  | .yieldLiteral => st_yield_literal input d
  | .backrefIndexMsb => st_backref_index_msb cfg input d
  | .backrefIndexLsb => st_backref_index_lsb cfg input d
  | .backrefCountMsb => st_backref_count_msb cfg input d
  | .backrefCountLsb => st_backref_count_lsb cfg input d
  | .yieldBackref => some (st_yield_backref d)
  | _ => some d

/-- Outcome of a decode run: success with the written prefix, a reported
error, an out-of-bounds buffer access (Rust panic), or exhaustion of the
iteration bound (never happens with the bound used by decode). -/
inductive DOut where
  | ok (bytes : List Nat) : DOut
  | err (e : DecodeError) : DOut
  | oob : DOut
  | fuelOut : DOut
deriving DecidableEq

/-- The decode loop (src/decoder.rs lines 67-96): handle terminal states,
otherwise run one transition and then the two per-iteration checks on the
bit cursor and the write cursor. -/
def runD (cfg : Config) (input : List Nat) : Nat → DState → DOut
  | 0, _ => .fuelOut
  | fuel + 1, d =>
    match d.state with
    | .needMoreData => .ok (d.output.take d.headIndex)
    | .outputFull => .err .OutputFull
    | .illegalBackref => .err .IllegalBackref
    | _ =>
      match stepD cfg input d with
      | none => .oob
      | some d' =>
        if input.length * 8 < d'.bitIndex then .ok (d'.output.take d'.headIndex)
        else if d'.output.length < d'.headIndex then .err .OutputFull
        else runD cfg input fuel d'

/-- Top-level decode (src/decoder.rs lines 39-46): fresh state in TagBit
over the caller's output buffer.  The iteration bound dominates the number
of loop iterations: every iteration except the ones leaving a yield-backref
or entering a terminal state consumes at least one input bit. -/
def decode (input output : List Nat) (cfg : Config) : DOut :=
  runD cfg input (input.length * 8 * 4 + 8) ⟨0, 0, .tagBit, 0, 0, output⟩

/-
  Specification-side definitions, used to state the claims in the words of
  the spec and compare them with the code-derived definitions above.
-/

/-- The cnt low bits of val, most-significant-bit first. -/
def natBits (cnt val : Nat) : List Bool :=
  (List.range cnt).map fun i => val.testBit (cnt - 1 - i)

/-- Abstraction of the encoder state as the bitstream produced so far:
the bits of the bytes already written followed by the pending low numBits
bits of the bit accumulator. -/
def ebits (e : EState) : List Bool :=
  ((e.output.take e.bitIndex).map (natBits 8)).flatten ++ natBits e.numBits e.bitBuf

/-- Modelled from the spec's words in section 4.2: the length of the common
run between input[s..] and input[head..], capped at 2^l bytes and at the
remaining input length, stated as the greatest k below the cap on which the
two windows agree pointwise. -/
def matchLenSpec (input : List Nat) (cfg : Config) (s head : Nat) : Nat :=
  Nat.findGreatest
    (fun k => ∀ i < k, input.getD (s + i) 0 = input.getD (head + i) 0)
    (min (2 ^ cfg.lookahead_sz2) (input.length - head))

/-- Number of bits the handler of a non-terminal decoder state requests
from get_bits. -/
def stateReadCount (cfg : Config) : HSDstate → Nat
  | .tagBit => 1
  | .yieldLiteral => 8
  | .backrefIndexMsb => cfg.window_sz2 - 8
  | .backrefIndexLsb => min cfg.window_sz2 8
  | .backrefCountMsb => cfg.lookahead_sz2 - 8
  | .backrefCountLsb => min cfg.lookahead_sz2 8
  | _ => 0

/-- The decoder states whose handler begins with a bit read. -/
def isReading : HSDstate → Bool
  | .tagBit => true
  | .yieldLiteral => true
  | .backrefIndexMsb => true
  | .backrefIndexLsb => true
  | .backrefCountMsb => true
  | .backrefCountLsb => true
  | _ => false

/-
  Helper lemmas about natBits and the bitstream abstraction of the
  encoder state.
-/

theorem natBits_congr {c v w : Nat} (h : ∀ i, i < c → v.testBit i = w.testBit i) :
    natBits c v = natBits c w := by
  unfold natBits
  apply List.map_congr_left
  intro i hi
  rw [List.mem_range] at hi
  exact h _ (by omega)

theorem natBits_mod_two_pow {c n : Nat} (v : Nat) (h : c ≤ n) :
    natBits c (v % 2 ^ n) = natBits c v := by
  apply natBits_congr
  intro i hi
  rw [Nat.testBit_mod_two_pow]
  have hin : i < n := by omega
  simp [hin]

theorem natBits_add (a b v : Nat) :
    natBits (a + b) v = natBits a (v >>> b) ++ natBits b v := by
  unfold natBits
  rw [List.range_add, List.map_append, List.map_map]
  congr 1
  · apply List.map_congr_left
    intro i hi
    rw [List.mem_range] at hi
    rw [Nat.testBit_shiftRight]
    congr 1
    omega
  · apply List.map_congr_left
    intro i hi
    rw [List.mem_range] at hi
    simp only [Function.comp_apply]
    congr 1
    omega

theorem natBits_or_shift (n c B v : Nat) (hv : v < 2 ^ c) :
    natBits (n + c) ((B <<< c) ||| v) = natBits n B ++ natBits c v := by
  rw [natBits_add]
  congr 1
  · apply natBits_congr
    intro i hi
    rw [Nat.testBit_shiftRight, Nat.testBit_or, Nat.testBit_shiftLeft]
    have hv' : v.testBit (c + i) = false :=
      Nat.testBit_lt_two_pow
        (lt_of_lt_of_le hv (Nat.pow_le_pow_right (by norm_num) (Nat.le_add_right c i)))
    have hdec : decide (c + i ≥ c) = true := by simp
    rw [hv', hdec]
    simp only [Bool.true_and, Bool.or_false]
    congr 1
    omega
  · apply natBits_congr
    intro i hi
    rw [Nat.testBit_or, Nat.testBit_shiftLeft]
    have hdec : decide (i ≥ c) = false := by simp; omega
    rw [hdec]
    simp

theorem natBits_emit (n c B v : Nat) (hv : v < 2 ^ c) (hn : n + c ≤ 32) :
    natBits (n + c) (((B <<< c) ||| v) % 2 ^ 32) = natBits n B ++ natBits c v := by
  rw [natBits_mod_two_pow _ hn, natBits_or_shift _ _ _ _ hv]

theorem natBits_split_byte (e v : Nat) (h : 8 ≤ e) :
    natBits e v = natBits 8 ((v >>> (e - 8)) % 256) ++ natBits (e - 8) v := by
  have h256 : (256 : Nat) = 2 ^ 8 := by norm_num
  rw [h256, natBits_mod_two_pow _ le_rfl]
  conv_lhs => rw [show e = 8 + (e - 8) by omega]
  rw [natBits_add]

theorem natBits_literal (b : Nat) (hb : b < 256) :
    natBits 9 (b ||| 0x0100) = true :: natBits 8 b := by
  have h9 : (9 : Nat) = 1 + 8 := by norm_num
  rw [h9, natBits_add]
  have h1 : natBits 1 ((b ||| 0x0100) >>> 8) = [true] := by
    have ht : ((b ||| 0x0100) >>> 8).testBit 0 = true := by
      rw [Nat.testBit_shiftRight, Nat.testBit_or]
      have hb8 : b.testBit 8 = false := Nat.testBit_lt_two_pow (by norm_num at hb ⊢; omega)
      have h256 : (0x0100 : Nat).testBit 8 = true := by decide
      rw [hb8, h256]
      simp
    simp [natBits, ht]
  rw [h1]
  have h2 : natBits 8 (b ||| 0x0100) = natBits 8 b := by
    apply natBits_congr
    intro i hi
    rw [Nat.testBit_or]
    have : (0x0100 : Nat).testBit i = false := by
      interval_cases i <;> decide
    rw [this]
    simp
  rw [h2]
  rfl

theorem take_set_succ (l : List Nat) (i b : Nat) (h : i < l.length) :
    (l.set i b).take (i + 1) = l.take i ++ [b] := by
  induction l generalizing i with
  | nil => simp at h
  | cons x xs ih =>
    cases i with
    | zero => simp
    | succ i =>
      simp only [List.set_cons_succ, List.take_succ_cons, List.cons_append]
      rw [ih i (by simpa using h)]

theorem emit_go_spec :
    ∀ (fuel : Nat) (e : EState), e.numBits ≤ 8 * fuel + 7 → e.bitIndex ≤ e.output.length →
      emit_go fuel e = .error .OutputFull ∨
      ∃ e', emit_go fuel e = .ok e' ∧ ebits e' = ebits e ∧ e'.numBits ≤ 7 ∧
        e'.bitIndex ≤ e'.output.length ∧ e'.output.length = e.output.length := by
  intro fuel
  induction fuel with
  | zero =>
    intro e hnum hbi
    right
    exact ⟨e, rfl, rfl, by omega, hbi, rfl⟩
  | succ fuel ih =>
    intro e hnum hbi
    by_cases h8 : 8 ≤ e.numBits
    · by_cases hful : e.output.length ≤ e.bitIndex
      · left
        simp only [emit_go, if_pos h8, if_pos hful]
      · have hlt : e.bitIndex < e.output.length := by omega
        set e2 : EState :=
          { e with
            output := e.output.set e.bitIndex ((e.bitBuf >>> (e.numBits - 8)) % 256)
            bitIndex := e.bitIndex + 1
            numBits := e.numBits - 8 } with he2
        have hstep : emit_go (fuel + 1) e = emit_go fuel e2 := by
          simp only [emit_go, if_pos h8, if_neg hful]
        have hbits : ebits e2 = ebits e := by
          unfold ebits
          rw [he2]
          simp only []
          rw [take_set_succ _ _ _ hlt, List.map_append, List.flatten_append]
          simp only [List.map_cons, List.map_nil, List.flatten_cons, List.flatten_nil,
            List.append_nil]
          rw [List.append_assoc]
          congr 1
          exact (natBits_split_byte e.numBits e.bitBuf h8).symm
        have := ih e2 (by rw [he2]; simp only []; omega)
          (by rw [he2]; simp only [List.length_set]; omega)
        rcases this with herr | ⟨e', hok, hb, hn, hbi', hlen⟩
        · left
          rw [hstep, herr]
        · right
          refine ⟨e', by rw [hstep, hok], ?_, hn, hbi', ?_⟩
          · rw [hb, hbits]
          · rw [hlen, he2]
            simp
    · right
      refine ⟨e, ?_, rfl, by omega, hbi, rfl⟩
      simp only [emit_go, if_neg h8]

theorem emit_bits_spec (val cnt : Nat) (e : EState) (hnum : e.numBits ≤ 7) (hcnt : cnt ≤ 15)
    (hval : val < 2 ^ cnt) (hbi : e.bitIndex ≤ e.output.length) :
    emit_bits val cnt e = some (.error .OutputFull) ∨
    ∃ e', emit_bits val cnt e = some (.ok e') ∧ ebits e' = ebits e ++ natBits cnt val ∧
      e'.numBits ≤ 7 ∧ e'.bitIndex ≤ e'.output.length ∧ e'.output.length = e.output.length := by
  set e1 : EState :=
    { e with
      bitBuf := ((e.bitBuf <<< cnt) ||| val) % 2 ^ 32
      numBits := e.numBits + cnt } with he1
  have hdef : emit_bits val cnt e = some (emit_go (e.numBits + cnt) e1) := by
    simp only [emit_bits, if_neg (show ¬16 ≤ cnt by omega), if_pos hval]
  have hb1 : ebits e1 = ebits e ++ natBits cnt val := by
    unfold ebits
    rw [he1]
    simp only []
    rw [natBits_emit _ _ _ _ hval (by omega), List.append_assoc]
  have := emit_go_spec (e.numBits + cnt) e1 (by rw [he1]; simp only []; omega)
    (by rw [he1]; simpa using hbi)
  rcases this with herr | ⟨e', hok, hb, hn, hbi', hlen⟩
  · left
    rw [hdef, herr]
  · right
    refine ⟨e', by rw [hdef, hok], ?_, hn, hbi', ?_⟩
    · rw [hb, hb1]
    · rw [hlen, he1]

/-
  Helper lemmas about cmp, search and the spec-side match length.
-/

theorem cmpRun_le (input : List Nat) : ∀ (s i j : Nat), cmpRun input i j s ≤ s := by
  intro s
  induction s with
  | zero => intro i j; simp [cmpRun]
  | succ s ih =>
    intro i j
    unfold cmpRun
    by_cases h : input.getD i 0 = input.getD j 0
    · rw [if_pos h]
      have := ih (i + 1) (j + 1)
      omega
    · rw [if_neg h]
      omega

theorem cmpRun_prefix (input : List Nat) :
    ∀ (s i j k : Nat), k < cmpRun input i j s →
      input.getD (i + k) 0 = input.getD (j + k) 0 := by
  intro s
  induction s with
  | zero => intro i j k hk; simp [cmpRun] at hk
  | succ s ih =>
    intro i j k hk
    unfold cmpRun at hk
    by_cases h : input.getD i 0 = input.getD j 0
    · rw [if_pos h] at hk
      cases k with
      | zero => simpa using h
      | succ k =>
        have := ih (i + 1) (j + 1) k (by omega)
        have hi : i + 1 + k = i + (k + 1) := by omega
        have hj : j + 1 + k = j + (k + 1) := by omega
        rw [hi, hj] at this
        exact this
    · rw [if_neg h] at hk
      omega

theorem cmpRun_mismatch (input : List Nat) :
    ∀ (s i j : Nat), cmpRun input i j s = s ∨
      input.getD (i + cmpRun input i j s) 0 ≠ input.getD (j + cmpRun input i j s) 0 := by
  intro s
  induction s with
  | zero => intro i j; left; simp [cmpRun]
  | succ s ih =>
    intro i j
    unfold cmpRun
    by_cases h : input.getD i 0 = input.getD j 0
    · rw [if_pos h]
      rcases ih (i + 1) (j + 1) with heq | hne
      · left
        omega
      · right
        have hi : i + (cmpRun input (i + 1) (j + 1) s + 1) = i + 1 + cmpRun input (i + 1) (j + 1) s := by
          omega
        have hj : j + (cmpRun input (i + 1) (j + 1) s + 1) = j + 1 + cmpRun input (i + 1) (j + 1) s := by
          omega
        rw [hi, hj]
        exact hne
    · rw [if_neg h]
      right
      simpa using h

theorem cap_eq (input : List Nat) (cfg : Config) (idx2 : Nat) :
    min input.length (idx2 + 2 ^ cfg.lookahead_sz2) - idx2 =
      min (2 ^ cfg.lookahead_sz2) (input.length - idx2) := by
  generalize 2 ^ cfg.lookahead_sz2 = L
  rcases Nat.le_total input.length (idx2 + L) with h | h
  · rw [Nat.min_eq_left h, Nat.min_eq_right (by omega : input.length - idx2 ≤ L)]
  · rw [Nat.min_eq_right h, Nat.min_eq_left (by omega : L ≤ input.length - idx2)]
    omega

theorem cmp_le_cap (input : List Nat) (cfg : Config) (idx1 idx2 : Nat) :
    cmp input cfg idx1 idx2 ≤
      min (2 ^ cfg.lookahead_sz2) (input.length - idx2) := by
  unfold cmp
  rw [cap_eq]
  exact cmpRun_le input _ idx1 idx2

theorem cmp_eq_matchLenSpec (input : List Nat) (cfg : Config) (s head : Nat) :
    cmp input cfg s head = matchLenSpec input cfg s head := by
  unfold matchLenSpec cmp
  rw [cap_eq]
  rw [eq_comm, Nat.findGreatest_eq_iff]
  refine ⟨cmpRun_le input _ s head, ?_, ?_⟩
  · intro _ i hi
    exact cmpRun_prefix input _ s head i hi
  · intro n hn hnle hP
    rcases cmpRun_mismatch input (min (2 ^ cfg.lookahead_sz2) (input.length - head)) s head
      with heq | hne
    · omega
    · exact hne (hP _ hn)

theorem searchFrom_best_le (input : List Nat) (cfg : Config) (head : Nat) :
    ∀ (n pos : Nat) (best : Nat × Nat),
      best.2 ≤ (searchFrom input cfg head n pos best).2 := by
  intro n
  induction n with
  | zero => intro pos best; simp [searchFrom]
  | succ n ih =>
    intro pos best
    unfold searchFrom
    by_cases h : best.2 ≤ cmp input cfg pos head
    · rw [if_pos h]
      exact le_trans h (ih (pos + 1) (pos, cmp input cfg pos head))
    · rw [if_neg h]
      exact ih (pos + 1) best

theorem searchFrom_dominates (input : List Nat) (cfg : Config) (head : Nat) :
    ∀ (n pos : Nat) (best : Nat × Nat) (i : Nat), i < n →
      cmp input cfg (pos + i) head ≤ (searchFrom input cfg head n pos best).2 := by
  intro n
  induction n with
  | zero => intro pos best i hi; omega
  | succ n ih =>
    intro pos best i hi
    unfold searchFrom
    cases i with
    | zero =>
      simp only [Nat.add_zero]
      by_cases h : best.2 ≤ cmp input cfg pos head
      · rw [if_pos h]
        exact searchFrom_best_le input cfg head n (pos + 1) (pos, cmp input cfg pos head)
      · rw [if_neg h]
        have := searchFrom_best_le input cfg head n (pos + 1) best
        omega
    | succ i =>
      have hres := ih (pos + 1) (if best.2 ≤ cmp input cfg pos head then (pos, cmp input cfg pos head) else best) i (by omega)
      have harg : pos + 1 + i = pos + (i + 1) := by omega
      rw [harg] at hres
      exact hres

theorem searchFrom_result (input : List Nat) (cfg : Config) (head : Nat) :
    ∀ (n pos : Nat) (best : Nat × Nat),
      (searchFrom input cfg head n pos best = best ∧
        ∀ j, j < n → cmp input cfg (pos + j) head < best.2) ∨
      (∃ i, i < n ∧
        (searchFrom input cfg head n pos best).1 = pos + i ∧
        (searchFrom input cfg head n pos best).2 = cmp input cfg (pos + i) head ∧
        ∀ j, i < j → j < n →
          cmp input cfg (pos + j) head < (searchFrom input cfg head n pos best).2) := by
  intro n
  induction n with
  | zero =>
    intro pos best
    left
    exact ⟨rfl, by omega⟩
  | succ n ih =>
    intro pos best
    by_cases h : best.2 ≤ cmp input cfg pos head
    · right
      have hstep : searchFrom input cfg head (n + 1) pos best =
          searchFrom input cfg head n (pos + 1) (pos, cmp input cfg pos head) := by
        show searchFrom input cfg head n (pos + 1)
            (if best.2 ≤ cmp input cfg pos head then (pos, cmp input cfg pos head) else best) = _
        rw [if_pos h]
      rcases ih (pos + 1) (pos, cmp input cfg pos head) with ⟨heq, hall⟩ | ⟨i, hi, h1, h2, htie⟩
      · refine ⟨0, by omega, ?_, ?_, ?_⟩
        · rw [hstep, heq]
          simp
        · rw [hstep, heq]
          simp
        · intro j hj0 hjn
          rw [hstep, heq]
          have := hall (j - 1) (by omega)
          have harg : pos + 1 + (j - 1) = pos + j := by omega
          rw [harg] at this
          exact this
      · refine ⟨i + 1, by omega, ?_, ?_, ?_⟩
        · rw [hstep, h1]
          omega
        · rw [hstep, h2]
          congr 1
          omega
        · intro j hij hjn
          rw [hstep]
          have := htie (j - 1) (by omega) (by omega)
          have harg : pos + 1 + (j - 1) = pos + j := by omega
          rw [harg] at this
          exact this
    · have hstep : searchFrom input cfg head (n + 1) pos best =
          searchFrom input cfg head n (pos + 1) best := by
        show searchFrom input cfg head n (pos + 1)
            (if best.2 ≤ cmp input cfg pos head then (pos, cmp input cfg pos head) else best) = _
        rw [if_neg h]
      rcases ih (pos + 1) best with ⟨heq, hall⟩ | ⟨i, hi, h1, h2, htie⟩
      · left
        refine ⟨by rw [hstep, heq], ?_⟩
        intro j hj
        cases j with
        | zero => simpa using (by omega : cmp input cfg pos head < best.2)
        | succ j =>
          have := hall j (by omega)
          have harg : pos + 1 + j = pos + (j + 1) := by omega
          rw [harg] at this
          exact this
      · right
        refine ⟨i + 1, by omega, ?_, ?_, ?_⟩
        · rw [hstep, h1]
          omega
        · rw [hstep, h2]
          congr 1
          omega
        · intro j hij hjn
          rw [hstep]
          cases j with
          | zero => omega
          | succ j =>
            have := htie j (by omega) (by omega)
            have harg : pos + 1 + j = pos + (j + 1) := by omega
            rw [harg] at this
            exact this

theorem search_eq_searchFrom (input : List Nat) (cfg : Config) (head : Nat) :
    search input cfg head =
      searchFrom input cfg head (head - (head - 2 ^ cfg.window_sz2))
        (head - 2 ^ cfg.window_sz2) (0, 0) := by
  unfold search
  by_cases h : head < 2 ^ cfg.window_sz2
  · rw [if_pos h]
    congr 1 <;> omega
  · rw [if_neg h]

theorem search_achieves (input : List Nat) (cfg : Config) (head : Nat) (h : 1 ≤ head) :
    head - 2 ^ cfg.window_sz2 ≤ (search input cfg head).1 ∧
    (search input cfg head).1 < head ∧
    (search input cfg head).2 = cmp input cfg (search input cfg head).1 head := by
  rw [search_eq_searchFrom]
  have hw : 1 ≤ 2 ^ cfg.window_sz2 := Nat.one_le_two_pow
  have hn : 1 ≤ head - (head - 2 ^ cfg.window_sz2) := by omega
  rcases searchFrom_result input cfg head (head - (head - 2 ^ cfg.window_sz2))
      (head - 2 ^ cfg.window_sz2) (0, 0) with ⟨_, hall⟩ | ⟨i, hi, h1, h2, _⟩
  · have := hall 0 (by omega)
    omega
  · refine ⟨by omega, by omega, ?_⟩
    rw [h2, h1]

theorem search_max (input : List Nat) (cfg : Config) (head : Nat) :
    ∀ s, head - 2 ^ cfg.window_sz2 ≤ s → s < head →
      cmp input cfg s head ≤ (search input cfg head).2 := by
  intro s hs1 hs2
  rw [search_eq_searchFrom]
  have := searchFrom_dominates input cfg head (head - (head - 2 ^ cfg.window_sz2))
    (head - 2 ^ cfg.window_sz2) (0, 0) (s - (head - 2 ^ cfg.window_sz2)) (by omega)
  have harg : head - 2 ^ cfg.window_sz2 + (s - (head - 2 ^ cfg.window_sz2)) = s := by omega
  rw [harg] at this
  exact this

theorem search_tie_break (input : List Nat) (cfg : Config) (head : Nat) :
    ∀ s, (search input cfg head).1 < s → s < head →
      cmp input cfg s head < (search input cfg head).2 := by
  intro s hs1 hs2
  rcases Nat.eq_zero_or_pos head with h0 | hpos
  · omega
  rw [search_eq_searchFrom] at hs1 ⊢
  rcases searchFrom_result input cfg head (head - (head - 2 ^ cfg.window_sz2))
      (head - 2 ^ cfg.window_sz2) (0, 0) with ⟨_, hall⟩ | ⟨i, hi, h1, h2, htie⟩
  · have hw : 1 ≤ 2 ^ cfg.window_sz2 := Nat.one_le_two_pow
    have := hall 0 (by omega)
    omega
  · have := htie (s - (head - 2 ^ cfg.window_sz2)) (by omega) (by omega)
    have harg : head - 2 ^ cfg.window_sz2 + (s - (head - 2 ^ cfg.window_sz2)) = s := by omega
    rw [harg] at this
    exact this

theorem search_zero (input : List Nat) (cfg : Config) : search input cfg 0 = (0, 0) := by
  rw [search_eq_searchFrom]
  simp [searchFrom]

theorem search_backref_bounds (input : List Nat) (cfg : Config) (pos : Nat)
    (h : threshold cfg < (search input cfg pos).2) :
    (search input cfg pos).1 < pos ∧
    pos - (search input cfg pos).1 ≤ 2 ^ cfg.window_sz2 ∧
    1 ≤ (search input cfg pos).2 ∧
    (search input cfg pos).2 ≤ 2 ^ cfg.lookahead_sz2 := by
  have hpos : 1 ≤ pos := by
    by_contra h0
    have hp : pos = 0 := by omega
    rw [hp, search_zero] at h
    simp at h
  obtain ⟨ha, hb, hc⟩ := search_achieves input cfg pos hpos
  have hcap := cmp_le_cap input cfg (search input cfg pos).1 pos
  have hmin := Nat.min_le_left (2 ^ cfg.lookahead_sz2) (input.length - pos)
  refine ⟨hb, by omega, by omega, by omega⟩

/-- C5: the encoder's match search considers exactly the candidate start
positions in the window [max(0, pos - 2^w), pos): writing the spec's
capped common-run match length as matchLenSpec, the returned candidate
lies in that window, its returned length is its match length, every
candidate in the window has match length at most the returned length, and
every candidate scanned after the returned one is strictly worse, so ties
go to the most recently scanned candidate. -/
theorem c5_search_spec (input : List Nat) (cfg : Config) (head : Nat) (h : 1 ≤ head) :
    head - 2 ^ cfg.window_sz2 ≤ (search input cfg head).1 ∧
    (search input cfg head).1 < head ∧
    (search input cfg head).2 = matchLenSpec input cfg (search input cfg head).1 head ∧
    (∀ s, head - 2 ^ cfg.window_sz2 ≤ s → s < head →
      matchLenSpec input cfg s head ≤ (search input cfg head).2) ∧
    (∀ s, (search input cfg head).1 < s → s < head →
      matchLenSpec input cfg s head < (search input cfg head).2) := by
  obtain ⟨h1, h2, h3⟩ := search_achieves input cfg head h
  refine ⟨h1, h2, ?_, ?_, ?_⟩
  · rw [h3, cmp_eq_matchLenSpec]
  · intro s hs1 hs2
    rw [← cmp_eq_matchLenSpec]
    exact search_max input cfg head s hs1 hs2
  · intro s hs1 hs2
    rw [← cmp_eq_matchLenSpec]
    exact search_tie_break input cfg head s hs1 hs2

/-- Witness for C5 at input [5, 5, 5], configuration (2, 2), position 2:
both candidates match one byte and the search returns the later one. -/
theorem c5_search_spec_witness :
    (1 : Nat) ≤ 2 ∧
    (2 - 2 ^ (2 : Nat) ≤ (search [5, 5, 5] ⟨2, 2⟩ 2).1 ∧
      (search [5, 5, 5] ⟨2, 2⟩ 2).1 < 2 ∧
      (search [5, 5, 5] ⟨2, 2⟩ 2).2 =
        matchLenSpec [5, 5, 5] ⟨2, 2⟩ (search [5, 5, 5] ⟨2, 2⟩ 2).1 2 ∧
      (∀ s, 2 - 2 ^ (2 : Nat) ≤ s → s < 2 →
        matchLenSpec [5, 5, 5] ⟨2, 2⟩ s 2 ≤ (search [5, 5, 5] ⟨2, 2⟩ 2).2) ∧
      (∀ s, (search [5, 5, 5] ⟨2, 2⟩ 2).1 < s → s < 2 →
        matchLenSpec [5, 5, 5] ⟨2, 2⟩ s 2 < (search [5, 5, 5] ⟨2, 2⟩ 2).2)) :=
  ⟨by omega, c5_search_spec [5, 5, 5] ⟨2, 2⟩ 2 (by omega)⟩

/-- C10: the values the encoder passes to emit_bits do fit their declared
bit counts, but the assert at the top of emit_bits still fails for the
valid widths 16, because its comparison shifts a 16-bit 1 by the bit
count: encoding the repeating input [1,2,...] under the valid
configuration w = 16, l = 4 reaches emit_bits with the distance minus one
equal to 1 at a declared width of 16 — the value fits, 1 < 2^16 — yet the
call aborts (debug builds panic on the shift overflow itself, release
builds mask the shift and fail the assert val < 1), so encode aborts
instead of completing. -/
theorem c10_code_eval :
    (1 : Nat) < 2 ^ 16 ∧
    emit_bits 1 16 ⟨0, 0, 1, List.replicate 56 0⟩ = none ∧
    encode [1, 2, 1, 2, 1, 2, 1, 2, 1, 2, 1, 2, 1, 2, 1, 2, 1, 2, 1, 2]
      (List.replicate 56 0) ⟨16, 4⟩ = none :=
  ⟨by norm_num, rfl, rfl⟩

theorem emit_bits_ok (val cnt : Nat) (e e' : EState) (hnum : e.numBits ≤ 7) (hcnt : cnt ≤ 15)
    (hval : val < 2 ^ cnt) (hbi : e.bitIndex ≤ e.output.length)
    (h : emit_bits val cnt e = some (.ok e')) :
    ebits e' = ebits e ++ natBits cnt val ∧ e'.numBits ≤ 7 ∧
    e'.bitIndex ≤ e'.output.length ∧ e'.output.length = e.output.length := by
  rcases emit_bits_spec val cnt e hnum hcnt hval hbi with herr | ⟨e1, heq, hb1, hn1, hbi1, hlen1⟩
  · rw [herr] at h
    simp at h
  · rw [heq] at h
    have he : e1 = e' := Except.ok.inj (Option.some.inj h)
    subst he
    exact ⟨hb1, hn1, hbi1, hlen1⟩

theorem emit_bits_ne_none (val cnt : Nat) (e : EState) (hval : val < 2 ^ cnt)
    (hcnt : cnt ≤ 15) : emit_bits val cnt e ≠ none := by
  simp only [emit_bits, if_neg (show ¬16 ≤ cnt by omega), if_pos hval]
  simp

/-- C6 counterexample: with the valid configuration w = 16, l = 4 the
claimed emission behavior fails on the program: at position 2 of the
repeating input [1,2,1,2,...], the best match length 16 exceeds the
threshold 2, so the claim says the step emits a backreference and
advances, but emit_bits hits the overflowing u16 shift of its assert at
bit count 16 and the encoder panics (modelled none) instead of emitting;
the whole encode call aborts the same way. -/
theorem c6_counterexample :
    threshold ⟨16, 4⟩ <
      (search [1, 2, 1, 2, 1, 2, 1, 2, 1, 2, 1, 2, 1, 2, 1, 2, 1, 2, 1, 2] ⟨16, 4⟩ 2).2 ∧
    encodeStep [1, 2, 1, 2, 1, 2, 1, 2, 1, 2, 1, 2, 1, 2, 1, 2, 1, 2, 1, 2] ⟨16, 4⟩ 2
      ⟨0, 0, 0, List.replicate 56 0⟩ = none ∧
    encode [1, 2, 1, 2, 1, 2, 1, 2, 1, 2, 1, 2, 1, 2, 1, 2, 1, 2, 1, 2]
      (List.replicate 56 0) ⟨16, 4⟩ = none :=
  ⟨by decide, rfl, rfl⟩

/-- C6 (amended to window and lookahead exponents at most 15; at 16 the
emit_bits assert's u16 shift overflows and the program panics instead of
emitting, see the counterexample): one iteration of the encode loop
realizes the spec's emission decision on the bitstream abstraction: with
threshold = (1 + l + w) / 8, if the best match length exceeds the
threshold the iteration appends a 0 tag bit, then distance - 1 in w bits,
then length - 1 in l bits, and advances pos by the match length;
otherwise it appends a 1 tag bit followed by the raw byte in 8 bits (the
code emits input[pos] | 0x100 in 9 bits, which is the same bit string)
and advances pos by 1. -/
theorem c6_emission_spec (input : List Nat) (cfg : Config) (pos : Nat) (e e' : EState)
    (pos' : Nat) (hb : ∀ x ∈ input, x < 256) (hw16 : cfg.window_sz2 ≤ 15)
    (hl16 : cfg.lookahead_sz2 ≤ 15) (hpos : pos < input.length) (hnum : e.numBits ≤ 7)
    (hbi : e.bitIndex ≤ e.output.length)
    (hstep : encodeStep input cfg pos e = some (.ok (e', pos'))) :
    (threshold cfg < (search input cfg pos).2 →
      ebits e' = ebits e ++
        false :: (natBits cfg.window_sz2 (pos - (search input cfg pos).1 - 1) ++
          natBits cfg.lookahead_sz2 ((search input cfg pos).2 - 1)) ∧
      pos' = pos + (search input cfg pos).2) ∧
    ((search input cfg pos).2 ≤ threshold cfg →
      ebits e' = ebits e ++ true :: natBits 8 (input.getD pos 0) ∧
      pos' = pos + 1) := by
  simp only [encodeStep] at hstep
  by_cases hbr : threshold cfg < (search input cfg pos).2
  · rw [if_pos hbr] at hstep
    obtain ⟨hlt, hrel, hone, hcap⟩ := search_backref_bounds input cfg pos hbr
    have hv1 : (0 : Nat) < 2 ^ 1 := by norm_num
    have hv2 : (pos - (search input cfg pos).1 - 1) % 2 ^ 16 < 2 ^ cfg.window_sz2 := by
      have hm := Nat.mod_le (pos - (search input cfg pos).1 - 1) (2 ^ 16)
      have hw : 1 ≤ 2 ^ cfg.window_sz2 := Nat.one_le_two_pow
      omega
    have hv3 : ((search input cfg pos).2 - 1) % 2 ^ 16 < 2 ^ cfg.lookahead_sz2 := by
      have hm := Nat.mod_le ((search input cfg pos).2 - 1) (2 ^ 16)
      omega
    constructor
    swap
    · intro hc
      omega
    intro _
    split at hstep
    · exact absurd (by assumption) (emit_bits_ne_none 0 1 e hv1 (by omega))
    · simp at hstep
    · rename_i e1 hek1
      obtain ⟨hb1, hn1, hbi1, hlen1⟩ := emit_bits_ok 0 1 e e1 hnum (by omega) hv1 hbi hek1
      split at hstep
      · exact absurd (by assumption)
          (emit_bits_ne_none _ cfg.window_sz2 e1 hv2 hw16)
      · simp at hstep
      · rename_i e2 hek2
        obtain ⟨hb2, hn2, hbi2, hlen2⟩ :=
          emit_bits_ok _ cfg.window_sz2 e1 e2 hn1 hw16 hv2 hbi1 hek2
        split at hstep
        · exact absurd (by assumption)
            (emit_bits_ne_none _ cfg.lookahead_sz2 e2 hv3 hl16)
        · simp at hstep
        · rename_i e3 hek3
          obtain ⟨hb3, hn3, hbi3, hlen3⟩ :=
            emit_bits_ok _ cfg.lookahead_sz2 e2 e3 hn2 hl16 hv3 hbi2 hek3
          have hinj := Option.some.inj hstep
          have hinj2 := Except.ok.inj hinj
          have he3 : e3 = e' := congrArg Prod.fst hinj2
          have hp : pos + (search input cfg pos).2 = pos' := congrArg Prod.snd hinj2
          subst he3
          constructor
          · rw [hb3, hb2, hb1]
            rw [natBits_mod_two_pow _ (show cfg.window_sz2 ≤ 16 by omega),
              natBits_mod_two_pow _ (show cfg.lookahead_sz2 ≤ 16 by omega)]
            have h10 : natBits 1 0 = [false] := rfl
            rw [h10]
            simp [List.append_assoc]
          · omega
  · rw [if_neg hbr] at hstep
    have hbyte : input.getD pos 0 < 256 := by
      have hmem : input.getD pos 0 ∈ input := by
        rw [List.getD_eq_getElem _ _ hpos]
        exact List.getElem_mem hpos
      exact hb _ hmem
    have hv : input.getD pos 0 ||| 0x0100 < 2 ^ 9 :=
      Nat.or_lt_two_pow (by omega) (by norm_num)
    constructor
    · intro hc
      omega
    intro _
    split at hstep
    · exact absurd (by assumption) (emit_bits_ne_none _ 9 e hv (by omega))
    · simp at hstep
    · rename_i e1 hek1
      obtain ⟨hb1, hn1, hbi1, hlen1⟩ := emit_bits_ok _ 9 e e1 hnum (by omega) hv hbi hek1
      have hinj := Option.some.inj hstep
      have hinj2 := Except.ok.inj hinj
      have he1 : e1 = e' := congrArg Prod.fst hinj2
      have hp : pos + 1 = pos' := congrArg Prod.snd hinj2
      subst he1
      constructor
      · rw [hb1, natBits_literal _ hbyte]
      · omega

/-- Witness for C6 at input [7], default configuration, position 0, a fresh
encoder state over a 3-byte buffer: the literal branch applies. -/
theorem c6_emission_spec_witness :
    encodeStep [7] ⟨11, 4⟩ 0 ⟨0, 0, 0, [0, 0, 0]⟩ =
      some (.ok (⟨1, 263, 1, [131, 0, 0]⟩, 1)) ∧
    ((threshold ⟨11, 4⟩ < (search [7] ⟨11, 4⟩ 0).2 →
      ebits ⟨1, 263, 1, [131, 0, 0]⟩ = ebits ⟨0, 0, 0, [0, 0, 0]⟩ ++
        false :: (natBits 11 (0 - (search [7] ⟨11, 4⟩ 0).1 - 1) ++
          natBits 4 ((search [7] ⟨11, 4⟩ 0).2 - 1)) ∧
      (1 : Nat) = 0 + (search [7] ⟨11, 4⟩ 0).2) ∧
    ((search [7] ⟨11, 4⟩ 0).2 ≤ threshold ⟨11, 4⟩ →
      ebits ⟨1, 263, 1, [131, 0, 0]⟩ = ebits ⟨0, 0, 0, [0, 0, 0]⟩ ++
        true :: natBits 8 (List.getD [7] 0 0) ∧
      (1 : Nat) = 0 + 1)) :=
  ⟨rfl, c6_emission_spec [7] ⟨11, 4⟩ 0 ⟨0, 0, 0, [0, 0, 0]⟩ ⟨1, 263, 1, [131, 0, 0]⟩ 1
    (by decide) (by decide) (by decide) (by decide) (by decide) (by decide) rfl⟩

/-
  Helper lemmas for the backreference copy loop of the decoder.
-/

theorem getD_set_self (l : List Nat) (i v : Nat) (h : i < l.length) :
    (l.set i v).getD i 0 = v := by
  rw [List.getD_eq_getElem?_getD, List.getElem?_set_self h]
  rfl

theorem getD_set_ne (l : List Nat) (i j v : Nat) (h : i ≠ j) :
    (l.set i v).getD j 0 = l.getD j 0 := by
  rw [List.getD_eq_getElem?_getD, List.getD_eq_getElem?_getD, List.getElem?_set_ne h]

theorem brCopy_length : ∀ (n start head : Nat) (out : List Nat),
    (brCopy start head n out).length = out.length := by
  intro n
  induction n with
  | zero => intro start head out; rfl
  | succ n ih =>
    intro start head out
    unfold brCopy
    rw [ih]
    simp

theorem brCopy_preserve : ∀ (n start head : Nat) (out : List Nat) (j : Nat), j < head →
    (brCopy start head n out).getD j 0 = out.getD j 0 := by
  intro n
  induction n with
  | zero => intro start head out j hj; rfl
  | succ n ih =>
    intro start head out j hj
    unfold brCopy
    rw [ih _ _ _ j (by omega)]
    exact getD_set_ne _ _ _ _ (by omega)

theorem brCopy_periodic : ∀ (n head dist : Nat) (out : List Nat), 1 ≤ dist → dist ≤ head →
    head + n ≤ out.length → ∀ i, i < n →
      (brCopy (head - dist) head n out).getD (head + i) 0 =
        out.getD (head - dist + i % dist) 0 := by
  intro n
  induction n with
  | zero => intro head dist out h1 h2 h3 i hi; omega
  | succ n ih =>
    intro head dist out h1 h2 h3 i hi
    have hstep : brCopy (head - dist) head (n + 1) out =
        brCopy (head + 1 - dist) (head + 1) n (out.set head (out.getD (head - dist) 0)) := by
      show brCopy (head - dist + 1) (head + 1) n (out.set head (out.getD (head - dist) 0)) = _
      congr 1
      omega
    rw [hstep]
    cases i with
    | zero =>
      simp only [Nat.add_zero, Nat.zero_mod]
      rw [brCopy_preserve _ _ _ _ head (by omega)]
      exact getD_set_self _ _ _ (by omega)
    | succ i =>
      have harg : head + (i + 1) = head + 1 + i := by omega
      rw [harg]
      rw [ih (head + 1) dist (out.set head (out.getD (head - dist) 0)) h1 (by omega)
        (by rw [List.length_set]; omega) i (by omega)]
      have hm : i % dist < dist := Nat.mod_lt _ (by omega)
      by_cases hcase : i % dist + 1 = dist
      · have hdiv := Nat.div_add_mod i dist
        have hmul : dist * (i / dist + 1) = dist * (i / dist) + dist := by ring
        have hi1 : i + 1 = dist * (i / dist + 1) := by omega
        have hmod0 : (i + 1) % dist = 0 := by rw [hi1, Nat.mul_mod_right]
        rw [hmod0, Nat.add_zero]
        have hidx : head + 1 - dist + i % dist = head := by omega
        rw [hidx]
        exact getD_set_self _ _ _ (by omega)
      · have hmod : (i + 1) % dist = i % dist + 1 := by
          conv_lhs => rw [← Nat.div_add_mod i dist]
          rw [Nat.add_assoc, Nat.mul_add_mod]
          exact Nat.mod_eq_of_lt (by omega)
        rw [hmod]
        rw [getD_set_ne _ _ _ _ (by omega)]
        congr 1
        omega

/-- C9: executing a legal, fitting backreference copies outputCount bytes
one at a time: earlier output positions are untouched, each written byte
equals the byte then present outputIndex positions earlier in the buffer
itself, and consequently the copied region is the periodic extension of
the outputIndex bytes preceding the write cursor, which is what makes a
backreference with distance smaller than its length replicate a repeating
pattern.  The state returns to TagBit with the cursor advanced by
outputCount. -/
theorem c9_backref_copy (d : DState) (h1 : 1 ≤ d.outputIndex)
    (h2 : d.outputIndex ≤ d.headIndex)
    (h3 : d.headIndex + d.outputCount ≤ d.output.length) :
    (st_yield_backref d).state = .tagBit ∧
    (st_yield_backref d).headIndex = d.headIndex + d.outputCount ∧
    (∀ j, j < d.headIndex →
      (st_yield_backref d).output.getD j 0 = d.output.getD j 0) ∧
    (∀ i, i < d.outputCount →
      (st_yield_backref d).output.getD (d.headIndex + i) 0 =
        (st_yield_backref d).output.getD (d.headIndex + i - d.outputIndex) 0) ∧
    (∀ i, i < d.outputCount →
      (st_yield_backref d).output.getD (d.headIndex + i) 0 =
        d.output.getD (d.headIndex - d.outputIndex + i % d.outputIndex) 0) := by
  have hyb : st_yield_backref d =
      { d with
        output := brCopy (d.headIndex - d.outputIndex) d.headIndex d.outputCount d.output
        headIndex := d.headIndex + d.outputCount
        state := .tagBit } := by
    unfold st_yield_backref
    rw [if_neg (by omega), if_neg (by omega)]
  rw [hyb]
  simp only []
  have hper := brCopy_periodic d.outputCount d.headIndex d.outputIndex d.output h1 h2 h3
  have hpre := fun j hj =>
    brCopy_preserve d.outputCount (d.headIndex - d.outputIndex) d.headIndex d.output j hj
  refine ⟨trivial, trivial, hpre, ?_, hper⟩
  intro i hi
  by_cases hcase : i < d.outputIndex
  · rw [hper i hi]
    have hidx : d.headIndex + i - d.outputIndex = d.headIndex - d.outputIndex + i := by omega
    rw [hidx, hpre _ (by omega)]
    congr 2
    exact Nat.mod_eq_of_lt hcase
  · have hoi : d.outputIndex ≤ i := by omega
    have hsub : d.headIndex + i - d.outputIndex = d.headIndex + (i - d.outputIndex) := by omega
    have hmm : (i - d.outputIndex) % d.outputIndex = i % d.outputIndex := by
      conv_rhs => rw [← Nat.sub_add_cancel hoi]
      rw [Nat.add_mod_right]
    rw [hper i hi, hsub, hper (i - d.outputIndex) (by omega), hmm]

/-- Witness for C9: a backreference with distance 2 and length 5 starting
from the buffer [1, 2, 0, 0, 0, 0, 0] at write cursor 2 replicates the
two-byte pattern. -/
theorem c9_backref_copy_witness :
    (1 : Nat) ≤ 2 ∧ (2 : Nat) ≤ 2 ∧ (2 : Nat) + 5 ≤ 7 ∧
    ((st_yield_backref ⟨5, 2, .yieldBackref, 2, 0, [1, 2, 0, 0, 0, 0, 0]⟩).state = .tagBit ∧
      (st_yield_backref ⟨5, 2, .yieldBackref, 2, 0, [1, 2, 0, 0, 0, 0, 0]⟩).headIndex = 2 + 5 ∧
      (∀ j, j < 2 →
        (st_yield_backref ⟨5, 2, .yieldBackref, 2, 0, [1, 2, 0, 0, 0, 0, 0]⟩).output.getD j 0 =
          List.getD [1, 2, 0, 0, 0, 0, 0] j 0) ∧
      (∀ i, i < 5 →
        (st_yield_backref ⟨5, 2, .yieldBackref, 2, 0, [1, 2, 0, 0, 0, 0, 0]⟩).output.getD
            (2 + i) 0 =
          (st_yield_backref ⟨5, 2, .yieldBackref, 2, 0, [1, 2, 0, 0, 0, 0, 0]⟩).output.getD
            (2 + i - 2) 0) ∧
      (∀ i, i < 5 →
        (st_yield_backref ⟨5, 2, .yieldBackref, 2, 0, [1, 2, 0, 0, 0, 0, 0]⟩).output.getD
            (2 + i) 0 =
          List.getD [1, 2, 0, 0, 0, 0, 0] (2 - 2 + i % 2) 0)) :=
  ⟨by omega, by omega, by omega,
    c9_backref_copy ⟨5, 2, .yieldBackref, 2, 0, [1, 2, 0, 0, 0, 0, 0]⟩
      (by decide) (by decide) (by decide)⟩

/-
  Helper lemmas about the possible successor states of each decoder state
  handler and about bounded input reads.
-/

theorem st_tag_bit_state (cfg : Config) (input : List Nat) (d d' : DState)
    (h : st_tag_bit cfg input d = some d') :
    d'.state = .needMoreData ∨ d'.state = .backrefIndexMsb ∨
    d'.state = .backrefIndexLsb ∨ d'.state = .yieldLiteral := by
  unfold st_tag_bit at h
  split at h
  · exact absurd h (by simp)
  · have he := Option.some.inj h
    subst he
    left
    rfl
  · split at h
    · split at h
      · have he := Option.some.inj h
        subst he
        right
        left
        rfl
      · have he := Option.some.inj h
        subst he
        right
        right
        left
        rfl
    · have he := Option.some.inj h
      subst he
      right
      right
      right
      rfl

theorem st_yield_literal_state (input : List Nat) (d d' : DState)
    (h : st_yield_literal input d = some d') :
    d'.state = .needMoreData ∨ d'.state = .tagBit := by
  unfold st_yield_literal at h
  split at h
  · exact absurd h (by simp)
  · have he := Option.some.inj h
    subst he
    left
    rfl
  · split at h
    · have he := Option.some.inj h
      subst he
      right
      rfl
    · exact absurd h (by simp)

theorem st_backref_index_msb_state (cfg : Config) (input : List Nat) (d d' : DState)
    (h : st_backref_index_msb cfg input d = some d') :
    d'.state = .needMoreData ∨ d'.state = .backrefIndexLsb := by
  unfold st_backref_index_msb at h
  split at h
  · exact absurd h (by simp)
  · have he := Option.some.inj h
    subst he
    left
    rfl
  · have he := Option.some.inj h
    subst he
    right
    rfl

theorem st_backref_index_lsb_state (cfg : Config) (input : List Nat) (d d' : DState)
    (h : st_backref_index_lsb cfg input d = some d') :
    d'.state = .needMoreData ∨ d'.state = .backrefCountMsb ∨
    d'.state = .backrefCountLsb := by
  unfold st_backref_index_lsb at h
  split at h
  · exact absurd h (by simp)
  · have he := Option.some.inj h
    subst he
    left
    rfl
  · have he := Option.some.inj h
    subst he
    by_cases hl : 8 < cfg.lookahead_sz2
    · right
      left
      simp [hl]
    · right
      right
      simp [hl]

theorem st_backref_count_msb_state (cfg : Config) (input : List Nat) (d d' : DState)
    (h : st_backref_count_msb cfg input d = some d') :
    d'.state = .needMoreData ∨ d'.state = .backrefIndexLsb := by
  unfold st_backref_count_msb at h
  split at h
  · exact absurd h (by simp)
  · have he := Option.some.inj h
    subst he
    left
    rfl
  · have he := Option.some.inj h
    subst he
    right
    rfl

theorem st_backref_count_lsb_state (cfg : Config) (input : List Nat) (d d' : DState)
    (h : st_backref_count_lsb cfg input d = some d') :
    d'.state = .needMoreData ∨ d'.state = .yieldBackref := by
  unfold st_backref_count_lsb at h
  split at h
  · exact absurd h (by simp)
  · have he := Option.some.inj h
    subst he
    left
    rfl
  · have he := Option.some.inj h
    subst he
    right
    rfl

theorem st_yield_backref_illegal_iff (d : DState) :
    (st_yield_backref d).state = .illegalBackref ↔ d.headIndex < d.outputIndex := by
  unfold st_yield_backref
  by_cases h1 : d.headIndex < d.outputIndex
  · rw [if_pos h1]
    simp [h1]
  · rw [if_neg h1]
    by_cases h2 : d.output.length < d.headIndex + d.outputCount
    · rw [if_pos h2]
      simp [h1]
    · rw [if_neg h2]
      simp [h1]

theorem gb_go_no_oob (input : List Nat) (count : Nat) :
    ∀ (fuel bi num bitbuf : Nat),
      8 * (bi / 8) + 8 + (count - num) ≤ 8 * input.length →
      gb_go input count fuel bi num bitbuf ≠ none := by
  intro fuel
  induction fuel with
  | zero =>
    intro bi num bitbuf h
    simp [gb_go]
  | succ fuel ih =>
    intro bi num bitbuf h
    unfold gb_go
    by_cases hn : num < count
    · rw [if_pos hn]
      have hidx : (bi + 8) / 8 < input.length := by omega
      rw [List.get?_eq_get hidx]
      exact ih (bi + 8) (num + 8) _ (by omega)
    · rw [if_neg hn]
      simp

theorem get_bits_no_oob (input : List Nat) (count bitIndex : Nat) (hc : 1 ≤ count) :
    get_bits input count bitIndex ≠ .oob := by
  unfold get_bits
  by_cases hend : input.length * 8 < bitIndex + count
  · rw [if_pos hend]
    simp
  · rw [if_neg hend]
    have hidx : bitIndex / 8 < input.length := by omega
    cases hb0 : input.get? (bitIndex / 8) with
    | none =>
      rw [List.get?_eq_none] at hb0
      omega
    | some b0 =>
      show (match gb_go input count count bitIndex (8 - bitIndex % 8) b0 with
        | none => GBOut.oob
        | some (bitbuf, num) =>
          GBOut.ok ((bitbuf >>> (num - count) &&& 2 ^ count - 1) % 2 ^ 16)
            (bitIndex + count)) ≠ GBOut.oob
      have hgo := gb_go_no_oob input count count bitIndex (8 - bitIndex % 8) b0 (by omega)
      cases hgb : gb_go input count count bitIndex (8 - bitIndex % 8) b0 with
      | none => exact absurd hgb hgo
      | some p =>
        cases p with
        | mk bitbuf num => simp

theorem get_bits_insufficient (input : List Nat) (count bitIndex : Nat)
    (h : input.length * 8 < bitIndex + count) :
    get_bits input count bitIndex = .insufficient := by
  unfold get_bits
  rw [if_pos h]

/-- C7: decode reports IllegalBackref exactly from the yield-backref state
with a distance exceeding the bytes produced so far: a transition yields
the IllegalBackref state only from YieldBackref with outputIndex greater
than headIndex (or when it is already there), the transition from
YieldBackref with such a distance yields exactly that state, a
YieldBackref transition with distance at most headIndex never yields it,
and the decode loop turns the IllegalBackref state into the IllegalBackref
error. -/
theorem c7_illegal_backref_iff (cfg : Config) (input : List Nat) (d : DState) :
    (∀ d', stepD cfg input d = some d' → d'.state = .illegalBackref →
      d.state = .illegalBackref ∨ (d.state = .yieldBackref ∧ d.headIndex < d.outputIndex)) ∧
    (d.state = .yieldBackref → d.headIndex < d.outputIndex →
      stepD cfg input d = some { d with state := .illegalBackref }) ∧
    (d.state = .yieldBackref → d.outputIndex ≤ d.headIndex →
      ∀ d', stepD cfg input d = some d' → d'.state ≠ .illegalBackref) ∧
    (∀ fuel, d.state = .illegalBackref →
      runD cfg input (fuel + 1) d = .err .IllegalBackref) := by
  refine ⟨?_, ?_, ?_, ?_⟩
  · intro d' hstep hst'
    cases hds : d.state
    case tagBit =>
      simp only [stepD, hds] at hstep
      rcases st_tag_bit_state cfg input d d' hstep with h | h | h | h <;>
        · rw [h] at hst'
          simp at hst'
    case yieldLiteral =>
      simp only [stepD, hds] at hstep
      rcases st_yield_literal_state input d d' hstep with h | h <;>
        · rw [h] at hst'
          simp at hst'
    case backrefIndexMsb =>
      simp only [stepD, hds] at hstep
      rcases st_backref_index_msb_state cfg input d d' hstep with h | h <;>
        · rw [h] at hst'
          simp at hst'
    case backrefIndexLsb =>
      simp only [stepD, hds] at hstep
      rcases st_backref_index_lsb_state cfg input d d' hstep with h | h | h <;>
        · rw [h] at hst'
          simp at hst'
    case backrefCountMsb =>
      simp only [stepD, hds] at hstep
      rcases st_backref_count_msb_state cfg input d d' hstep with h | h <;>
        · rw [h] at hst'
          simp at hst'
    case backrefCountLsb =>
      simp only [stepD, hds] at hstep
      rcases st_backref_count_lsb_state cfg input d d' hstep with h | h <;>
        · rw [h] at hst'
          simp at hst'
    case yieldBackref =>
      simp only [stepD, hds] at hstep
      have he := Option.some.inj hstep
      right
      refine ⟨rfl, ?_⟩
      exact (st_yield_backref_illegal_iff d).1 (by rw [he]; exact hst')
    case needMoreData =>
      simp only [stepD, hds] at hstep
      have he := Option.some.inj hstep
      rw [← he] at hst'
      rw [hds] at hst'
      simp at hst'
    case outputFull =>
      simp only [stepD, hds] at hstep
      have he := Option.some.inj hstep
      rw [← he] at hst'
      rw [hds] at hst'
      simp at hst'
    case illegalBackref =>
      left
      rfl
  · intro hds hlt
    simp only [stepD, hds]
    congr 1
    unfold st_yield_backref
    rw [if_pos hlt]
  · intro hds hle d' hstep hst'
    simp only [stepD, hds] at hstep
    have he := Option.some.inj hstep
    have := (st_yield_backref_illegal_iff d).1 (by rw [he]; exact hst')
    omega
  · intro fuel hst
    simp only [runD, hst]

/-- Witness for C7 at a concrete yield-backref state with distance 3 and
only 2 bytes produced: the transition yields the IllegalBackref state and
the loop reports the IllegalBackref error. -/
theorem c7_illegal_backref_iff_witness :
    DState.state ⟨1, 3, .yieldBackref, 2, 0, [9, 9, 9]⟩ = .yieldBackref ∧
    DState.headIndex ⟨1, 3, .yieldBackref, 2, 0, [9, 9, 9]⟩ <
      DState.outputIndex ⟨1, 3, .yieldBackref, 2, 0, [9, 9, 9]⟩ ∧
    stepD ⟨11, 4⟩ [] ⟨1, 3, .yieldBackref, 2, 0, [9, 9, 9]⟩ =
      some ⟨1, 3, .illegalBackref, 2, 0, [9, 9, 9]⟩ ∧
    runD ⟨11, 4⟩ [] (4 + 1) ⟨1, 3, .illegalBackref, 2, 0, [9, 9, 9]⟩ = .err .IllegalBackref :=
  ⟨rfl, by decide,
    (c7_illegal_backref_iff ⟨11, 4⟩ [] ⟨1, 3, .yieldBackref, 2, 0, [9, 9, 9]⟩).2.1
      rfl (by decide),
    (c7_illegal_backref_iff ⟨11, 4⟩ [] ⟨1, 3, .illegalBackref, 2, 0, [9, 9, 9]⟩).2.2.2
      4 rfl⟩

/-- C8: a bit read never touches the input out of bounds, and whenever the
handler of the current state finds fewer bits remaining than it requests,
the state machine moves to NeedMoreData and the decode loop terminates
successfully, returning exactly the bytes produced so far; the partially
read token is discarded and no error is reported. -/
theorem c8_clean_eos (cfg : Config) (input : List Nat) (fuel : Nat) (d : DState)
    (hr : isReading d.state = true)
    (hshort : input.length * 8 < d.bitIndex + stateReadCount cfg d.state)
    (hbi : d.bitIndex ≤ input.length * 8)
    (hhead : d.headIndex ≤ d.output.length)
    (hfuel : 2 ≤ fuel) :
    runD cfg input fuel d = .ok (d.output.take d.headIndex) ∧
    (∀ count bi, 1 ≤ count → get_bits input count bi ≠ .oob) := by
  constructor
  swap
  · intro count bi h1c
    exact get_bits_no_oob input count bi h1c
  obtain ⟨f, rfl⟩ : ∃ f, fuel = f + 2 := ⟨fuel - 2, by omega⟩
  have hstep : stepD cfg input d = some { d with state := .needMoreData } := by
    cases hds : d.state
    case tagBit =>
      rw [hds] at hshort
      simp only [stateReadCount] at hshort
      simp only [stepD, hds]
      unfold st_tag_bit
      rw [get_bits_insufficient input 1 d.bitIndex hshort]
    case yieldLiteral =>
      rw [hds] at hshort
      simp only [stateReadCount] at hshort
      simp only [stepD, hds]
      unfold st_yield_literal
      rw [get_bits_insufficient input 8 d.bitIndex hshort]
    case backrefIndexMsb =>
      rw [hds] at hshort
      simp only [stateReadCount] at hshort
      simp only [stepD, hds]
      unfold st_backref_index_msb
      rw [get_bits_insufficient input (cfg.window_sz2 - 8) d.bitIndex hshort]
    case backrefIndexLsb =>
      rw [hds] at hshort
      simp only [stateReadCount] at hshort
      simp only [stepD, hds]
      unfold st_backref_index_lsb
      rw [get_bits_insufficient input (min cfg.window_sz2 8) d.bitIndex hshort]
    case backrefCountMsb =>
      rw [hds] at hshort
      simp only [stateReadCount] at hshort
      simp only [stepD, hds]
      unfold st_backref_count_msb
      rw [get_bits_insufficient input (cfg.lookahead_sz2 - 8) d.bitIndex hshort]
    case backrefCountLsb =>
      rw [hds] at hshort
      simp only [stateReadCount] at hshort
      simp only [stepD, hds]
      unfold st_backref_count_lsb
      rw [get_bits_insufficient input (min cfg.lookahead_sz2 8) d.bitIndex hshort]
    all_goals
      rw [hds] at hr
      simp [isReading] at hr
  cases hds : d.state
  case needMoreData =>
    rw [hds] at hr
    simp [isReading] at hr
  case outputFull =>
    rw [hds] at hr
    simp [isReading] at hr
  case illegalBackref =>
    rw [hds] at hr
    simp [isReading] at hr
  all_goals
    · show runD cfg input (f + 1 + 1) d = _
      simp only [runD, hds, hstep]
      rw [if_neg (show ¬input.length * 8 < d.bitIndex by omega)]
      rw [if_neg (show ¬d.output.length < d.headIndex by omega)]

/-- Witness for C8: decoding the single byte 0x80 reaches YieldLiteral
with only 7 bits left; the run returns the empty prefix produced so far. -/
theorem c8_clean_eos_witness :
    isReading (DState.state ⟨0, 0, .yieldLiteral, 0, 1, [0, 0]⟩) = true ∧
    [128].length * 8 < 1 + stateReadCount ⟨11, 4⟩ (DState.state ⟨0, 0, .yieldLiteral, 0, 1, [0, 0]⟩) ∧
    (1 : Nat) ≤ [128].length * 8 ∧ (0 : Nat) ≤ 2 ∧ (2 : Nat) ≤ 2 ∧
    (runD ⟨11, 4⟩ [128] 2 ⟨0, 0, .yieldLiteral, 0, 1, [0, 0]⟩ =
        .ok (List.take 0 [0, 0]) ∧
      (∀ count bi, 1 ≤ count → get_bits [128] count bi ≠ .oob)) :=
  ⟨rfl, by decide, by decide, by decide, by decide,
    c8_clean_eos ⟨11, 4⟩ [128] 2 ⟨0, 0, .yieldLiteral, 0, 1, [0, 0]⟩
      rfl (by decide) (by decide) (by decide) (by decide)⟩

/-- C1: with the valid configuration w = 1, l = 1 and input x = [0], the
encoder succeeds into a buffer of size 2*len(x)+16 and produces the two
bytes [0x80, 0x00], but decoding that stream with the same configuration
into a buffer of capacity len(x) = 1 fails with OutputFull instead of
returning x: the seven zero padding bits of the final byte decode as a
spurious distance-1 length-1 backreference.  This refutes the claimed
round-trip property for every valid configuration. -/
theorem c1_code_eval :
    encode [0] (List.replicate 18 0) ⟨1, 1⟩ = some (.ok [128, 0]) ∧
    decode [128, 0] [0] ⟨1, 1⟩ = .err .OutputFull :=
  ⟨rfl, rfl⟩

/-- C2: encoding the single byte [6] into a 1-byte output buffer with the
default configuration (w = 11, l = 4) does not return OutputFull: after
emit_bits fills the only output byte, flush writes the pending bit at
index 1 of a length-1 buffer, an out-of-bounds access (Rust panic),
modelled as none.  A 2-byte buffer shows the stream is [0x83, 0x00]. -/
theorem c2_code_eval :
    encode [6] [0] ⟨11, 4⟩ = none ∧
    encode [6] [0, 0] ⟨11, 4⟩ = some (.ok [131, 0]) :=
  ⟨rfl, rfl⟩

/-- C3: the stream [0xB0, 0xD8, 0x80] is the encoding of the two literals
[97, 98] under the default configuration and decodes to them in a 2-byte
buffer, but decoding it into a 1-byte buffer does not return OutputFull:
the second literal lands at the buffer's capacity and st_yield_literal
writes out of bounds (Rust panic), modelled as DOut.oob. -/
theorem c3_code_eval :
    encode [97, 98] (List.replicate 10 0) ⟨11, 4⟩ = some (.ok [176, 216, 128]) ∧
    decode [176, 216, 128] [0, 0] ⟨11, 4⟩ = .ok [97, 98] ∧
    decode [176, 216, 128] [0] ⟨11, 4⟩ = .oob :=
  ⟨rfl, rfl, rfl⟩

/-- C4: with lookahead exponent l = 9 the BackrefCountMsb handler reads
l - 8 = 1 bit and sets the count accumulator to the value shifted left by
8, but transitions to BackrefIndexLsb, not BackrefCountLsb as the claim
states.  As a consequence the encoder/decoder pair is not inverse for
l > 8: the 12-byte input 1,2,3 repeated four times encodes under
w = 11, l = 9 to six bytes that decode, with ample buffers and the same
configuration, to just [1, 2, 3]. -/
theorem c4_code_eval :
    st_backref_count_msb ⟨11, 9⟩ [0] ⟨0, 0, .backrefCountMsb, 0, 0, []⟩ =
      some ⟨0, 0, .backrefIndexLsb, 0, 1, []⟩ ∧
    HSDstate.backrefIndexLsb ≠ HSDstate.backrefCountLsb ∧
    encode [1, 2, 3, 1, 2, 3, 1, 2, 3, 1, 2, 3] (List.replicate 40 0) ⟨11, 9⟩ =
      some (.ok [128, 192, 160, 96, 4, 8]) ∧
    decode [128, 192, 160, 96, 4, 8] (List.replicate 40 0) ⟨11, 9⟩ = .ok [1, 2, 3] :=
  ⟨rfl, by decide, rfl, rfl⟩

end Heatshrink
